import Mathlib

/-!
Verification of the claude-files repository against its specification.

Part 1 embeds `skills/export-to-md/convert.py`: the line cleaner, the line
classifiers, the turn segmenter (`parse_export`), the content normalizer
(`clean_content`), and the Markdown renderer (`format_markdown`).
Part 2 embeds `hooks/dangerous-command-blocker.py`: the pattern lists and the
allow/block verdict.

Strings are modelled as `List Char`; Python's per-line processing becomes
functions over `List Char` and `List (List Char)`.
-/

namespace Conv

/-- Python's default whitespace set for `str.strip` / regex `\s` (ASCII part). -/
def pyWs (c : Char) : Bool :=
  c = ' ' || c = '\t' || c = '\n' || c = '\r' || c = '\x0b' || c = '\x0c'

/-- Shorthand: the characters of a string literal. -/
def toL (s : String) : List Char := s.toList

/-- Python `str.lstrip()`. -/
def lstripL (l : List Char) : List Char := l.dropWhile pyWs

/-- Python `str.rstrip()`: drop the trailing whitespace run. -/
def rstripL (l : List Char) : List Char := (l.reverse.dropWhile pyWs).reverse

/-- Python `str.strip()`. -/
def pstrip (l : List Char) : List Char := rstripL (lstripL l)

/-- Join lines with a newline, as `'\n'.join(...)`. -/
def joinNL (ls : List (List Char)) : List Char := List.intercalate ['\n'] ls

/-- Python `str.split('\n')`. -/
def splitNL : List Char → List (List Char)
  | [] => [[]]
  | c :: cs =>
    if c = '\n' then [] :: splitNL cs
    else
      match splitNL cs with
      | [] => [[c]]
      | l :: ls => (c :: l) :: ls

/-- Python `str.startswith` on character lists. -/
def isStartL : List Char → List Char → Bool
  | [], _ => true
  | _ :: _, [] => false
  | a :: as, b :: bs => a = b && isStartL as bs

/-- Python substring containment `needle in haystack`. -/
def isInfixL (n : List Char) : List Char → Bool
  | [] => isStartL n []
  | c :: hs => isStartL n (c :: hs) || isInfixL n hs

/-- Matcher for one ANSI escape sequence `\x1b\[[0-9;]*[mK]` at the head of the
list; returns the remainder after the sequence. From `remove_ansi_codes`. -/
def tryAnsi : List Char → Option (List Char)
  | c1 :: c2 :: rest =>
    if c1 = '\x1b' ∧ c2 = '[' then
      let body := rest.dropWhile (fun c => c.isDigit || c = ';')
      if body.head? = some 'm' ∨ body.head? = some 'K' then some body.tail
      else none
    else none
  | _ => none

/-- Worker for `remove_ansi_codes`. The fuel argument only serves structural
recursion; every match consumes at least one character, so fuel equal to the
input length (as supplied by `remove_ansi_codes`) is never exhausted. -/
def removeAnsiGo : Nat → List Char → List Char
  | 0, l => l
  | _ + 1, [] => []
  | fuel + 1, c :: cs =>
    match tryAnsi (c :: cs) with
    | some r => removeAnsiGo fuel r
    | none => c :: removeAnsiGo fuel cs

/-- Embedding of `remove_ansi_codes`: delete every match of
`\x1b\[[0-9;]*[mK]`, scanning left to right. -/
def remove_ansi_codes (l : List Char) : List Char := removeAnsiGo l.length l

/-- The `BOX_CHARS` character class of `convert.py`. -/
def boxChars : List Char :=
  ['╭', '╮', '╰', '╯', '│', '─', '┌', '┐', '└', '┘', '├', '┤', '┬', '┴', '┼',
   '═', '║', '╔', '╗', '╚', '╝', '╠', '╣', '╦', '╩', '╬', '▐', '▛', '▜', '▌',
   '▝', '▘']

/-- Embedding of `remove_box_chars`. -/
def remove_box_chars (l : List Char) : List Char :=
  l.filter (fun c => !(boxChars.contains c))

/-- One character under the chained `.replace` calls of `clean_line`:
`⏺`, `⎿`, `✻` are deleted and `…` becomes `...`. -/
def replArtifact (c : Char) : List Char :=
  if c = '⏺' ∨ c = '⎿' ∨ c = '✻' then []
  else if c = '…' then ['.', '.', '.'] else [c]

def replaceArtifacts : List Char → List Char
  | [] => []
  | c :: cs => replArtifact c ++ replaceArtifacts cs

/-- Embedding of `clean_line`: ANSI removal, box-char removal, artifact
replacement, then `rstrip`. -/
def clean_line (l : List Char) : List Char :=
  rstripL (replaceArtifacts (remove_box_chars (remove_ansi_codes l)))

def userGlyph : Char := '❯'

/-- Embedding of `is_user_prompt`: the stripped line starts with `❯`. -/
def is_user_prompt (l : List Char) : Bool :=
  match pstrip l with
  | c :: _ => c = userGlyph
  | [] => false

def systemCommands : List (List Char) :=
  [toL "/rename", toL "/help", toL "/clear", toL "/exit", toL "/model",
   toL "/logout", toL "/export"]

/-- Embedding of `is_system_command`. -/
def is_system_command (l : List Char) : Bool :=
  systemCommands.any (fun cmd => isStartL cmd (pstrip l))

def systemResponses : List (List Char) :=
  [toL "Please provide a name for the session", toL "Session renamed to:",
   toL "Exported conversation to:", toL "Usage: /rename", toL "Usage: /help"]

/-- Embedding of `is_system_response`. -/
def is_system_response (l : List Char) : Bool :=
  systemResponses.any (fun r => isInfixL r (pstrip l))

def bannerIndicators : List (List Char) :=
  [toL "Claude Code v", toL "Welcome back", toL "Tips for getting",
   toL "Run /init", toL "Recent activity", toL "No recent activity",
   toL "API Usage Billing", toL "Organization", toL "Auth conflict",
   toL "Trying to use", toL "/model to try"]

/-- Embedding of `is_cli_banner`. -/
def is_cli_banner (l : List Char) : Bool :=
  bannerIndicators.any (fun b => isInfixL b l)

def sauteLit : List Char := toL "Sautéed for "

/-- After the literal: `\d+[ms]` — a nonempty digit run whose first following
character is `m` or `s` (backtracking inside the digit run cannot succeed,
digits are not `m`/`s`). -/
def timingAfter (l : List Char) : Bool :=
  (!(l.takeWhile Char.isDigit).isEmpty) &&
    (match l.dropWhile Char.isDigit with
     | 'm' :: _ => true
     | 's' :: _ => true
     | _ => false)

/-- Scan for `Sautéed for \d+[ms]`; `.*` in `re.match` cannot cross `\n`,
so the scan stops at a newline. -/
def timingScan : List Char → Bool
  | [] => false
  | c :: cs =>
    if c = '\n' then false
    else
      (isStartL sauteLit (c :: cs) && timingAfter ((c :: cs).drop sauteLit.length))
        || timingScan cs

/-- Embedding of `is_timing_line`: `re.match(r'.*Sautéed for \d+[ms]', line)`. -/
def is_timing_line (l : List Char) : Bool := timingScan l

/-- Embedding of `has_claude_marker`: the raw line contains `⏺`. -/
def has_claude_marker (l : List Char) : Bool := l.contains '⏺'

def arrowC : Char := '→'

/-- Matcher for `^\s*\d+→` at a line-start position; returns the remainder
after the match. Note that `\s*` can consume newlines, so the match may span
lines. From `remove_line_numbers`. -/
def tryLineNum (s : List Char) : Option (List Char) :=
  let s1 := s.dropWhile pyWs
  let d := s1.takeWhile Char.isDigit
  let s2 := s1.dropWhile Char.isDigit
  if !d.isEmpty && s2.head? = some arrowC then some s2.tail else none

/-- Worker for the scanner of `remove_line_numbers` (`re.sub` with
`re.MULTILINE`): at every line-start position try `\s*\d+→` and delete the
match; otherwise copy the character. The fuel argument only serves structural
recursion; every step consumes at least one character, so fuel equal to the
input length is never exhausted. -/
def rmLNGo : Nat → List Char → Bool → List Char
  | 0, l, _ => l
  | _ + 1, [], _ => []
  | fuel + 1, c :: cs, atStart =>
    if atStart then
      match tryLineNum (c :: cs) with
      | some r => rmLNGo fuel r false
      | none => c :: rmLNGo fuel cs (c = '\n')
    else c :: rmLNGo fuel cs (c = '\n')

/-- The scanner of `remove_line_numbers`. -/
def rmLN (l : List Char) (atStart : Bool) : List Char := rmLNGo l.length l atStart

/-- Embedding of `remove_line_numbers`. -/
def remove_line_numbers (content : List Char) : List Char := rmLN content true

/-- Result of trying `\s*\d+→` at the start of one line (used to describe what
`remove_line_numbers` does to a single newline-free line). -/
def stripLN (l : List Char) : List Char :=
  match tryLineNum l with
  | some r => r
  | none => l

inductive Speaker where
  | user : Speaker
  | claude : Speaker
deriving DecidableEq

def Speaker.isClaude : Speaker → Bool
  | Speaker.claude => true
  | Speaker.user => false

/-- A conversation turn with its content kept as the list of content lines
(the Python dict joins them with `'\n'` at flush time; see `TurnL.toTurn`). -/
structure TurnL where
  type : Speaker
  content : List (List Char)
deriving DecidableEq

/-- A turn as the Python dict stores it: `content` is the joined string. -/
structure Turn where
  type : Speaker
  content : List Char
deriving DecidableEq

def TurnL.toTurn (t : TurnL) : Turn := ⟨t.type, joinNL t.content⟩

/-- Loop state of `parse_export`: `turns`, `current_turn`, `current_content`,
`skip_banner`. -/
structure PState where
  turns : List TurnL
  cur : Option Speaker
  curContent : List (List Char)
  skipBanner : Bool
deriving DecidableEq

/-- Flush: `if current_turn and current_content: turns.append(...)`. -/
def flushTurns (st : PState) : List TurnL :=
  match st.cur with
  | some t => if st.curContent.isEmpty then st.turns else st.turns ++ [⟨t, st.curContent⟩]
  | none => st.turns

/-- `re.sub(r'^❯\s*', '', cleaned.strip())`: strip, then drop one leading `❯`
together with the whitespace after it. -/
def promptTextOf (cleaned : List Char) : List Char :=
  match pstrip cleaned with
  | c :: rest => if c = userGlyph then rest.dropWhile pyWs else c :: rest
  | [] => []

/-- The body of the `parse_export` loop after the banner-skip phase:
timing lines and system responses are dropped; a user prompt starts (or, for a
system command, only flushes) a turn; a marker line starts or continues the
assistant turn; otherwise the line continues the current turn, or starts an
implicit assistant turn when non-blank. -/
def processMain (st : PState) (isClaudeStart : Bool) (cleaned : List Char) : PState :=
  if is_timing_line cleaned then st
  else if is_system_response cleaned then st
  else if is_user_prompt cleaned then
    let promptText := promptTextOf cleaned
    if is_system_command promptText then
      { st with turns := flushTurns st, cur := none, curContent := [] }
    else
      { st with turns := flushTurns st, cur := some Speaker.user,
                curContent := if promptText.isEmpty then [] else [promptText] }
  else if isClaudeStart ∧ st.cur ≠ some Speaker.claude then
    { st with turns := flushTurns st, cur := some Speaker.claude,
              curContent := if (pstrip cleaned).isEmpty then [] else [cleaned] }
  else if isClaudeStart ∧ st.cur = some Speaker.claude then
    { st with curContent := st.curContent ++ [cleaned] }
  else if st.cur = some Speaker.user then
    { st with curContent := st.curContent ++ [cleaned] }
  else if st.cur = some Speaker.claude then
    { st with curContent := st.curContent ++ [cleaned] }
  else if !(pstrip cleaned).isEmpty then
    { st with cur := some Speaker.claude, curContent := [cleaned] }
  else st

/-- One iteration of the `parse_export` loop: the marker is checked on the raw
line before cleaning; while `skip_banner` is set, banner and blank lines are
dropped and only a user prompt ends the preamble (falling through to the main
body). -/
def stepLine (st : PState) (line : List Char) : PState :=
  let isClaudeStart := has_claude_marker line
  let cleaned := clean_line line
  if st.skipBanner then
    if is_cli_banner cleaned ∨ (pstrip cleaned).isEmpty then st
    else if is_user_prompt cleaned then
      processMain { st with skipBanner := false } isClaudeStart cleaned
    else st
  else processMain st isClaudeStart cleaned

def initState : PState := ⟨[], none, [], true⟩

/-- The segmenter proper: fold the loop over the lines, then flush the last
turn. -/
def parseLines (ls : List (List Char)) : List TurnL :=
  flushTurns (ls.foldl stepLine initState)

/-- Embedding of `parse_export`, with turn content kept as line lists. -/
def parse_exportL (content : List Char) : List TurnL :=
  parseLines (splitNL (remove_line_numbers content))

/-- Embedding of `parse_export`: the Python version stores each turn's content
already joined with `'\n'`. -/
def parse_export (content : List Char) : List Turn :=
  (parse_exportL content).map TurnL.toTurn

/-- Separator test of `clean_content`: `re.match(r'^[-=]{3,}$', stripped)`. -/
def isSepLine (stripped : List Char) : Bool :=
  decide (3 ≤ stripped.length) && stripped.all (fun c => c = '-' || c = '=')

/-- Leading-whitespace width `len(line) - len(line.lstrip())`. -/
def wsIndent (l : List Char) : Nat := (l.takeWhile pyWs).length

/-- Minimum indentation over non-blank lines (0 when there are none). -/
def minIndent (lines : List (List Char)) : Nat :=
  match (lines.filter (fun l => !(pstrip l).isEmpty)).map wsIndent with
  | [] => 0
  | n :: ns => ns.foldl Nat.min n

/-- `if line and len(line) >= min_indent: line = line[min_indent:]`. -/
def dedent (minInd : Nat) (l : List Char) : List Char :=
  if !l.isEmpty && decide (minInd ≤ l.length) then l.drop minInd else l

/-- The accumulator loop of `clean_content`: drop separator lines (remembering
whether one followed non-blank emitted content), drop one blank line right
after such a separator, dedent and keep everything else. -/
def ccLoop (minInd : Nat) : List (List Char) → List (List Char) → Bool → List (List Char)
  | [], cleaned, _ => cleaned
  | l :: ls, cleaned, prevSep =>
    let stripped := pstrip l
    if isSepLine stripped then
      if !cleaned.isEmpty && !(pstrip (cleaned.getLast?.getD [])).isEmpty then
        ccLoop minInd ls cleaned true
      else ccLoop minInd ls cleaned prevSep
    else if prevSep && stripped.isEmpty then ccLoop minInd ls cleaned false
    else ccLoop minInd ls (cleaned ++ [dedent minInd l]) false

/-- Embedding of `clean_content`. -/
def clean_content (content : List Char) : List Char :=
  let lines := splitNL content
  joinNL (ccLoop (minIndent lines) lines [] false)

/-- Specification-level restatement of the normalizer's line filter, written
from the amended wording of the per-turn normalization claim: every pure
separator line is dropped; when a separator immediately follows non-blank kept
content, one blank line immediately following the separator is dropped as
well; every other line is kept, dedented by the turn minimum indentation.
`lastKept` is the most recently kept (dedented) line, `pend` records a
just-seen content-following separator. -/
def specDrop (minInd : Nat) : List (List Char) → Option (List Char) → Bool → List (List Char)
  | [], _, _ => []
  | l :: ls, lastKept, pend =>
    if isSepLine (pstrip l) then
      specDrop minInd ls lastKept
        (if (match lastKept with
             | some k => !(pstrip k).isEmpty
             | none => false) then true else pend)
    else if pend && (pstrip l).isEmpty then specDrop minInd ls lastKept false
    else dedent minInd l :: specDrop minInd ls (some (dedent minInd l)) false

/-- Header truncation of `format_markdown`: headers longer than 80 characters
become their first 77 characters plus `...`. -/
def truncHeader (header : List Char) : List Char :=
  if 80 < header.length then header.take 77 ++ toL "..." else header

/-- The user-turn branch of `format_markdown`, applied to the already
stripped-and-cleaned content: an H1 from the (stripped, possibly truncated)
first content line, then the remaining lines as a body block if non-blank. -/
def renderUserLines (content : List Char) : List (List Char) :=
  let contentLines := splitNL content
  let header := truncHeader (pstrip contentLines.headI)
  (toL "# " ++ header) ::
    (if 1 < contentLines.length then
       (let remaining := pstrip (joinNL contentLines.tail)
        if remaining.isEmpty then [] else [[], remaining])
     else [])

/-- Per-turn rendering of `format_markdown`: empty turns are skipped; user
turns become an H1 block, assistant turns an `## Claude` block; every rendered
turn is followed by a blank line. -/
def renderTurnLines (t : Turn) : List (List Char) :=
  let content := pstrip t.content
  if content.isEmpty then []
  else
    let cc := clean_content content
    (match t.type with
     | Speaker.user => renderUserLines cc
     | Speaker.claude => [[], toL "## Claude", [], cc]) ++ [[]]

/-- `re.sub(r'\n{4,}', '\n\n\n', text)`: runs of four or more newlines become
exactly three (`n` is the pending newline-run length). -/
def nlRun (n : Nat) : List Char :=
  List.replicate (if 4 ≤ n then 3 else n) '\n'

def collapseNLs : List Char → Nat → List Char
  | [], n => nlRun n
  | c :: cs, n =>
    if c = '\n' then collapseNLs cs (n + 1)
    else nlRun n ++ c :: collapseNLs cs 0

/-- The blank-line walk of `collapse_whitespace`: at most two consecutive
blank lines survive, and kept blank lines are emitted as empty strings. -/
def blankWalk : List (List Char) → Nat → List (List Char)
  | [], _ => []
  | l :: ls, bc =>
    if (pstrip l).isEmpty then
      if bc + 1 ≤ 2 then [] :: blankWalk ls (bc + 1) else blankWalk ls (bc + 1)
    else l :: blankWalk ls 0

/-- Embedding of `collapse_whitespace`. -/
def collapse_whitespace (text : List Char) : List Char :=
  joinNL (blankWalk (splitNL (collapseNLs text 0)) 0)

/-- Embedding of `format_markdown`. The front-matter date comes from
`datetime.now()` in the source; it is passed here as the explicit argument
`today`. -/
def format_markdown (turns : List Turn) (title today : List Char) : List Char :=
  let headerLines : List (List Char) :=
    [toL "---", toL "title: \"" ++ title ++ ['"'], toL "date: " ++ today,
     toL "tags: [claude-code, conversation]", toL "---", []]
  collapse_whitespace (joinNL (headerLines ++ (turns.map renderTurnLines).flatten))

/-- The full pipeline (`parse_export` then `format_markdown`), as run by
`main`. `today` stands for the `datetime.now()` date string. -/
def convert (content title today : List Char) : List Char :=
  format_markdown (parse_export content) title today

/-- Prepend the lines `p`, each terminated by a newline, to the raw input
`x`. -/
def prependLines (p : List (List Char)) (x : List Char) : List Char :=
  p.foldr (fun l acc => l ++ '\n' :: acc) x

/-- The characters a `^\s*\d+→` line-number prefix can consist of. -/
def lnStop (c : Char) : Bool := pyWs c || c.isDigit || c = arrowC

end Conv

namespace Hook

/-- Regular-expression syntax used by the pattern lists of
`dangerous-command-blocker.py`: characters, character classes given as
inclusive ranges, `.` (any char but newline), concatenation, alternation,
`*`, `+`, `?`, the `$` anchor, and negative lookahead `(?!...)`. -/
inductive Rx where
  | eps : Rx
  | chr : Char → Rx
  | cls : List (Char × Char) → Rx
  | dot : Rx
  | seq : Rx → Rx → Rx
  | alt : Rx → Rx → Rx
  | star : Rx → Rx
  | plus : Rx → Rx
  | opt : Rx → Rx
  | eol : Rx
  | nla : Rx → Rx
deriving DecidableEq

def clsMatch (rs : List (Char × Char)) (c : Char) : Bool :=
  rs.any (fun p => p.1 ≤ c && c ≤ p.2)

/-- Backtracking matcher in continuation-passing style with explicit fuel
(the fuel only bounds backtracking depth; `rxFuel` below is generous enough
for every evaluation in this development). A match of `r` against a prefix of
`s` succeeds when the continuation `k` accepts the remainder. Python's `$`
matches at the end of the string or just before a final newline. -/
def rxRun : Nat → Rx → List Char → (List Char → Bool) → Bool
  | 0, _, _, _ => false
  | fuel + 1, r, s, k =>
    match r with
    | Rx.eps => k s
    | Rx.chr c =>
      match s with
      | [] => false
      | x :: xs => if x = c then k xs else false
    | Rx.cls rs =>
      match s with
      | [] => false
      | x :: xs => if clsMatch rs x then k xs else false
    | Rx.dot =>
      match s with
      | [] => false
      | x :: xs => if x = '\n' then false else k xs
    | Rx.seq a b => rxRun fuel a s (fun s2 => rxRun fuel b s2 k)
    | Rx.alt a b => rxRun fuel a s k || rxRun fuel b s k
    | Rx.star a =>
      k s || rxRun fuel a s
        (fun s2 => if s2.length < s.length then rxRun fuel (Rx.star a) s2 k else false)
    | Rx.plus a => rxRun fuel a s (fun s2 => rxRun fuel (Rx.star a) s2 k)
    | Rx.opt a => k s || rxRun fuel a s k
    | Rx.eol => if s = [] ∨ s = ['\n'] then k s else false
    | Rx.nla a => if rxRun fuel a s (fun _ => true) then false else k s

def rxSize : Rx → Nat
  | Rx.eps => 1
  | Rx.chr _ => 1
  | Rx.cls _ => 1
  | Rx.dot => 1
  | Rx.seq a b => rxSize a + rxSize b + 1
  | Rx.alt a b => rxSize a + rxSize b + 1
  | Rx.star a => rxSize a + 1
  | Rx.plus a => rxSize a + 2
  | Rx.opt a => rxSize a + 1
  | Rx.eol => 1
  | Rx.nla a => rxSize a + 1

def rxFuel (r : Rx) (s : List Char) : Nat :=
  (rxSize r + 2) * (s.length + 2) + rxSize r + 4

/-- Does `r` match starting exactly at the head of `s`? -/
def rxSearchAt (r : Rx) (s : List Char) : Bool :=
  rxRun (rxFuel r s) r s (fun _ => true)

/-- `re.search`: try a match at every start position. -/
def rxSearch (r : Rx) : List Char → Bool
  | [] => rxSearchAt r []
  | c :: cs => rxSearchAt r (c :: cs) || rxSearch r cs

/-- ASCII lower-casing, as Python's case folding acts on these ASCII-only
patterns and commands. -/
def lowerC (c : Char) : Char :=
  if 'A' ≤ c ∧ c ≤ 'Z' then Char.ofNat (c.toNat + 32) else c

def lowerS (l : List Char) : List Char := l.map lowerC

/-- Embedding of `re.search(pattern, command, re.IGNORECASE)`: the patterns
below are written lower-case-normalized, and the command is lower-cased before
matching. -/
def reSearchIC (r : Rx) (cmd : List Char) : Bool := rxSearch r (lowerS cmd)

def toR (s : String) : Rx := s.toList.foldr (fun c r => Rx.seq (Rx.chr c) r) Rx.eps

def rcat (l : List Rx) : Rx := l.foldr Rx.seq Rx.eps

/-- `\s` as a character class. -/
def rws : Rx :=
  Rx.cls [(' ', ' '), ('\t', '\t'), ('\n', '\n'), ('\r', '\r'),
          ('\x0b', '\x0b'), ('\x0c', '\x0c')]

def rwsP : Rx := Rx.plus rws

def rwsS : Rx := Rx.star rws

def rdig : Rx := Rx.cls [('0', '9')]

def dotStar : Rx := Rx.star Rx.dot

/-- `(-[rfRF]+\s+)*` (lower-cased: `[rfRF]` becomes `{r,f}`). -/
def rmFlags : Rx :=
  Rx.star (rcat [Rx.chr '-', Rx.plus (Rx.cls [('r', 'r'), ('f', 'f')]), rwsP])

/-- `(-[rR]+\s+)*`. -/
def recFlags : Rx := Rx.star (rcat [Rx.chr '-', Rx.plus (Rx.cls [('r', 'r')]), rwsP])

def lbraceC : Char := Char.ofNat 123

def rbraceC : Char := Char.ofNat 125

/-- `BLOCKED_PATTERNS`, in source order, lower-case-normalized. The fork-bomb
pattern `:()\s*{\s*:\|\:&\s*}\s*;` contains an empty group `()` and literal
braces. -/
def BLOCKED_PATTERNS : List Rx :=
  [rcat [toR "rm", rwsP, rmFlags, Rx.cls [('/', '/'), ('~', '~')], Rx.alt rws Rx.eol],
   rcat [toR "rm", rwsP, rmFlags, Rx.chr '/', Rx.chr '*'],
   rcat [toR "rm", rwsP, rmFlags, Rx.chr '.', Rx.chr '.'],
   rcat [toR "rm", rwsP, rmFlags, toR "--no-preserve-root"],
   rcat [Rx.chr '>', rwsS, toR "/dev/sd", Rx.cls [('a', 'z')]],
   rcat [toR "dd", rwsP, dotStar, toR "of=/dev/sd", Rx.cls [('a', 'z')]],
   toR "mkfs.",
   rcat [Rx.chr ':', rwsS, Rx.chr lbraceC, rwsS, Rx.chr ':', Rx.chr '|',
         Rx.chr ':', Rx.chr '&', rwsS, Rx.chr rbraceC, rwsS, Rx.chr ';'],
   rcat [toR "chmod", rwsP, recFlags, Rx.star (Rx.cls [('0', '7')]), toR "00",
         rwsP, Rx.chr '/'],
   rcat [toR "chown", rwsP, recFlags, dotStar, rwsP, Rx.chr '/', Rx.alt rws Rx.eol],
   rcat [toR "mv", rwsP, Rx.chr '/', rws],
   rcat [toR "curl", dotStar, Rx.chr '|', rwsS, Rx.opt (toR "ba"), toR "sh"],
   rcat [toR "wget", dotStar, Rx.chr '|', rwsS, Rx.opt (toR "ba"), toR "sh"],
   rcat [toR "curl", dotStar, toR "-o", rwsS, Rx.chr '/'],
   rcat [toR "cat", dotStar, toR "/etc/shadow"],
   rcat [toR "cat", dotStar, toR ".ssh/id_"],
   rcat [toR "cat", dotStar, toR ".aws/credentials"],
   rcat [toR "cat", dotStar, toR ".env", Rx.alt rws (Rx.alt Rx.eol (Rx.chr '/'))],
   rcat [Rx.chr '>', rwsS, toR "~/.", dotStar, toR "_history"],
   rcat [toR "rm", dotStar, toR ".bash_history"],
   rcat [toR "rm", dotStar, toR ".zsh_history"],
   rcat [toR "nmap", rwsP, Rx.chr '-'],
   rcat [toR "hydra", rwsP],
   rcat [toR "sqlmap", rwsP],
   rcat [toR "git", rwsP, toR "push", dotStar, toR "--force", dotStar, toR "main"],
   rcat [toR "git", rwsP, toR "push", dotStar, toR "--force", dotStar, toR "master"],
   rcat [toR "git", rwsP, toR "reset", rwsP, toR "--hard", rwsP, toR "head~",
         Rx.plus (Rx.cls [('0', '9')])],
   rcat [toR "git", rwsP, toR "clean", rwsP, Rx.chr '-',
         Rx.plus (Rx.cls [('d', 'd'), ('f', 'f'), ('x', 'x')])],
   rcat [toR "terraform", rwsP, toR "apply"],
   rcat [toR "terraform", rwsP, toR "destroy"]]

/-- `WARNING_PATTERNS`, in source order, lower-case-normalized. -/
def WARNING_PATTERNS : List Rx :=
  [rcat [toR "rm", rwsP, Rx.chr '-', Rx.plus (Rx.cls [('r', 'r'), ('f', 'f')])],
   rcat [toR "chmod", rwsP, toR "777"],
   rcat [toR "sudo", rwsP],
   rcat [toR "su", rwsP, Rx.chr '-'],
   rcat [Rx.chr '>', rwsS, toR "/etc/"],
   rcat [toR "pip", rwsP, toR "install", rwsP, Rx.nla (rcat [toR "-e", rws])],
   rcat [toR "npm", rwsP, toR "install", rwsP, toR "-g"],
   rcat [toR "brew", rwsP, toR "install"]]

/-- Embedding of `check_dangerous` (first component; the reason string of the
source is a formatted message naming the matched pattern). -/
def check_dangerous (cmd : List Char) : Bool :=
  BLOCKED_PATTERNS.any (fun p => reSearchIC p cmd)

/-- Embedding of `check_warning` (first component of the returned pair). -/
def check_warning (cmd : List Char) : Bool :=
  WARNING_PATTERNS.any (fun p => reSearchIC p cmd)

inductive Verdict where
  | allow : Verdict
  | block : Verdict
deriving DecidableEq

/-- The decision logic of `main`: no command (or an empty command, which is
falsy in Python) is allowed; a command matching a blocked pattern exits 2
(block); warnings are computed but the command is allowed. -/
def mainVerdict : Option (List Char) → Verdict
  | none => Verdict.allow
  | some cmd =>
    if cmd.isEmpty then Verdict.allow
    else if check_dangerous cmd then Verdict.block
    else Verdict.allow

end Hook

namespace Conv

theorem tryAnsi_length {s r : List Char} (h : tryAnsi s = some r) :
    r.length < s.length := by
  match s with
  | [] => simp [tryAnsi] at h
  | [c] => simp [tryAnsi] at h
  | c1 :: c2 :: rest =>
    simp only [tryAnsi] at h
    split at h
    · split at h
      · rename_i hhead
        cases h
        have hne : (rest.dropWhile (fun c => c.isDigit || c = ';')) ≠ [] := by
          intro hnil
          rw [hnil] at hhead
          simp at hhead
        have h1 : (rest.dropWhile (fun c => c.isDigit || c = ';')).length ≤ rest.length :=
          ((List.dropWhile_suffix _).sublist).length_le
        have h2 : 1 ≤ (rest.dropWhile (fun c => c.isDigit || c = ';')).length :=
          List.length_pos.mpr hne
        rw [List.length_tail]
        simp only [List.length_cons]
        omega
      · cases h
    · cases h

theorem removeAnsiGo_fuel : ∀ (f1 : Nat) (l : List Char) (f2 : Nat),
    l.length ≤ f1 → l.length ≤ f2 → removeAnsiGo f1 l = removeAnsiGo f2 l := by
  intro f1
  induction f1 with
  | zero =>
    intro l f2 h1 _
    have hl : l = [] := List.eq_nil_of_length_eq_zero (Nat.le_zero.mp h1)
    subst hl
    cases f2 <;> rfl
  | succ g1 ih =>
    intro l f2 h1 h2
    match l with
    | [] => cases f2 <;> rfl
    | c :: cs =>
      match f2 with
      | 0 => simp at h2
      | g2 + 1 =>
        simp only [removeAnsiGo]
        simp only [List.length_cons] at h1 h2
        cases htry : tryAnsi (c :: cs) with
        | some r =>
          have hr := tryAnsi_length htry
          simp only [List.length_cons] at hr
          exact ih r g2 (by omega) (by omega)
        | none => rw [ih cs g2 (by omega) (by omega)]

theorem remove_ansi_cons_none {c : Char} {cs : List Char}
    (h : tryAnsi (c :: cs) = none) :
    remove_ansi_codes (c :: cs) = c :: remove_ansi_codes cs := by
  unfold remove_ansi_codes
  simp only [List.length_cons, removeAnsiGo, h]

theorem remove_ansi_cons_some {c : Char} {cs r : List Char}
    (h : tryAnsi (c :: cs) = some r) :
    remove_ansi_codes (c :: cs) = remove_ansi_codes r := by
  unfold remove_ansi_codes
  simp only [List.length_cons, removeAnsiGo, h]
  have hr := tryAnsi_length h
  simp only [List.length_cons] at hr
  exact removeAnsiGo_fuel _ _ _ (by omega) (le_refl _)

theorem tryAnsi_none_of_ne {c : Char} (cs : List Char) (h : ¬c = '\x1b') :
    tryAnsi (c :: cs) = none := by
  cases cs with
  | nil => rfl
  | cons c2 rest => simp [tryAnsi, h]

theorem tryAnsi_subset {s r : List Char} (h : tryAnsi s = some r) : r ⊆ s := by
  match s with
  | [] => simp [tryAnsi] at h
  | [c] => simp [tryAnsi] at h
  | c1 :: c2 :: rest =>
    simp only [tryAnsi] at h
    split at h
    · split at h
      · cases h
        intro a ha
        have h1 : a ∈ rest.dropWhile (fun c => c.isDigit || c = ';') :=
          (List.tail_sublist _).subset ha
        have h2 : a ∈ rest := ((List.dropWhile_suffix _).sublist).subset h1
        exact List.mem_cons_of_mem _ (List.mem_cons_of_mem _ h2)
      · cases h
    · cases h

theorem removeAnsiGo_subset : ∀ (fuel : Nat) (l : List Char),
    removeAnsiGo fuel l ⊆ l := by
  intro fuel
  induction fuel with
  | zero => intro l a ha; exact ha
  | succ g ih =>
    intro l
    match l with
    | [] => intro a ha; cases ha
    | c :: cs =>
      simp only [removeAnsiGo]
      cases htry : tryAnsi (c :: cs) with
      | some r => exact fun a ha => tryAnsi_subset htry (ih r ha)
      | none =>
        intro a ha
        rcases List.mem_cons.mp ha with h1 | h1
        · exact h1 ▸ List.mem_cons_self _ _
        · exact List.mem_cons_of_mem _ (ih cs h1)

theorem mem_remove_ansi (l : List Char) : remove_ansi_codes l ⊆ l :=
  removeAnsiGo_subset _ l

theorem noEsc_remove_ansi : ∀ (l : List Char), (∀ a ∈ l, ¬a = '\x1b') →
    remove_ansi_codes l = l := by
  intro l
  induction l with
  | nil => intro _; rfl
  | cons c cs ih =>
    intro h
    rw [remove_ansi_cons_none (tryAnsi_none_of_ne cs (h c (List.mem_cons_self _ _)))]
    rw [ih (fun a ha => h a (List.mem_cons_of_mem _ ha))]

theorem mem_remove_box {l : List Char} : remove_box_chars l ⊆ l :=
  (List.filter_sublist _).subset

theorem replaceArtifacts_eq_self {l : List Char}
    (h : ∀ c ∈ l, replArtifact c = [c]) : replaceArtifacts l = l := by
  induction l with
  | nil => rfl
  | cons c cs ih =>
    show replArtifact c ++ replaceArtifacts cs = c :: cs
    rw [h c (List.mem_cons_self _ _), ih (fun a ha => h a (List.mem_cons_of_mem _ ha))]
    rfl

theorem mem_replaceArtifacts {a : Char} : ∀ {l : List Char},
    a ∈ replaceArtifacts l → a ∈ l ∨ a = '.' := by
  intro l
  induction l with
  | nil => intro h; cases h
  | cons c cs ih =>
    intro h
    rcases List.mem_append.mp h with h1 | h1
    · unfold replArtifact at h1
      split at h1
      · cases h1
      · split at h1
        · right; simpa using h1
        · left
          have h2 : a = c := by simpa using h1
          exact h2 ▸ List.mem_cons_self _ _
    · rcases ih h1 with h2 | h2
      · exact Or.inl (List.mem_cons_of_mem _ h2)
      · exact Or.inr h2

theorem mem_replaceArtifacts_not_artifact {a : Char} : ∀ {l : List Char},
    a ∈ replaceArtifacts l → ¬(a = '⏺' ∨ a = '⎿' ∨ a = '✻' ∨ a = '…') := by
  intro l
  induction l with
  | nil => intro h; cases h
  | cons c cs ih =>
    intro h
    rcases List.mem_append.mp h with h1 | h1
    · unfold replArtifact at h1
      split at h1
      · cases h1
      · split at h1
        · have h2 : a = '.' := by simpa using h1
          subst h2; decide
        · rename_i hn1 hn2
          have h2 : a = c := by simpa using h1
          subst h2
          intro hcon
          rcases hcon with h3 | h3 | h3 | h3
          · exact hn1 (Or.inl h3)
          · exact hn1 (Or.inr (Or.inl h3))
          · exact hn1 (Or.inr (Or.inr h3))
          · exact hn2 h3
    · exact ih h1

theorem dropWhile_dropWhile (p : Char → Bool) (l : List Char) :
    (l.dropWhile p).dropWhile p = l.dropWhile p := by
  induction l with
  | nil => rfl
  | cons c cs ih =>
    by_cases h : p c <;> simp [List.dropWhile_cons, h, ih]

theorem rstripL_idem (l : List Char) : rstripL (rstripL l) = rstripL l := by
  unfold rstripL
  rw [List.reverse_reverse, dropWhile_dropWhile]

theorem mem_rstripL {l : List Char} : rstripL l ⊆ l := by
  intro a ha
  unfold rstripL at ha
  rw [List.mem_reverse] at ha
  have := ((List.dropWhile_suffix pyWs).sublist).subset ha
  exact List.mem_reverse.mp this

theorem mem_clean_line {a : Char} {l : List Char} (h : a ∈ clean_line l) :
    a ∈ l ∨ a = '.' := by
  unfold clean_line at h
  have h1 := mem_rstripL h
  rcases mem_replaceArtifacts h1 with h2 | h2
  · exact Or.inl (mem_remove_ansi _ (mem_remove_box h2))
  · exact Or.inr h2

/-- C5 (amended): `clean_line` is idempotent on every line that contains no
ANSI escape character `'\x1b'`. (Removing box-drawing or marker glyphs can
splice a previously broken escape sequence back together, so idempotence can
fail in the presence of `'\x1b'`; see the counterexample.) -/
theorem C5_clean_line_idempotent (x : List Char) (h : '\x1b' ∉ x) :
    clean_line (clean_line x) = clean_line x := by
  have hEsc : ∀ a ∈ clean_line x, ¬a = '\x1b' := by
    intro a ha hae
    rcases mem_clean_line ha with h1 | h1
    · exact h (hae ▸ h1)
    · rw [hae] at h1; cases h1
  have hAnsi : remove_ansi_codes (clean_line x) = clean_line x :=
    noEsc_remove_ansi _ hEsc
  have hBoxMem : ∀ a ∈ clean_line x, !(boxChars.contains a) := by
    intro a ha
    unfold clean_line at ha
    have h1 := mem_rstripL ha
    rcases mem_replaceArtifacts h1 with h2 | h2
    · exact (List.mem_filter.mp h2).2
    · rw [h2]; decide
  have hBox : remove_box_chars (clean_line x) = clean_line x :=
    List.filter_eq_self.mpr hBoxMem
  have hRepl : replaceArtifacts (clean_line x) = clean_line x := by
    apply replaceArtifacts_eq_self
    intro c hc
    have hna : ¬(c = '⏺' ∨ c = '⎿' ∨ c = '✻' ∨ c = '…') := by
      unfold clean_line at hc
      exact mem_replaceArtifacts_not_artifact (mem_rstripL hc)
    unfold replArtifact
    rw [if_neg (fun hcon => hna (by tauto)), if_neg (fun hcon => hna (by tauto))]
  have hStrip : rstripL (clean_line x) = clean_line x := by
    unfold clean_line
    rw [rstripL_idem]
  show rstripL (replaceArtifacts (remove_box_chars (remove_ansi_codes (clean_line x)))) =
    clean_line x
  rw [hAnsi, hBox, hRepl, hStrip]

/-- C5 witness: the idempotence theorem applied to a concrete escape-free
line. -/
theorem C5_witness :
    ('\x1b' ∉ toL "✻ hello │ world…") ∧
    clean_line (clean_line (toL "✻ hello │ world…")) =
      clean_line (toL "✻ hello │ world…") :=
  ⟨by decide, C5_clean_line_idempotent _ (by decide)⟩

/-- C5 counterexample: on `"\x1b│[0m"` the box-char removal of the first pass
splices the broken escape sequence together, and the second pass deletes it,
so `clean_line` is not idempotent on all inputs. -/
theorem C5_counterexample :
    clean_line (clean_line ['\x1b', '│', '[', '0', 'm']) ≠
      clean_line ['\x1b', '│', '[', '0', 'm'] := by decide

/-- C1 counterexample: for `"❯ hi\n⏺\n⏺ b\n⏺ c"` — a marker-only line
followed by two more marker-bearing lines with no user prompt in between —
the single emitted assistant turn has 2 content lines, not 3: the marker-only
line cleans to the empty string and seeds no content. -/
theorem C1_counterexample :
    ((parse_export (toL "❯ hi\n⏺\n⏺ b\n⏺ c")).filter
        (fun t => t.type.isClaude)).map (fun t => (splitNL t.content).length) = [2] ∧
    ((parse_export (toL "❯ hi\n⏺\n⏺ b\n⏺ c")).filter
        (fun t => t.type.isClaude)).map (fun t => (splitNL t.content).length) ≠ [3] :=
  ⟨by decide, by decide⟩

/-- C2 counterexample: on input `"❯\n"` the bare prompt seeds an empty content
list, the following empty line is appended to it, and the final flush emits a
turn whose joined content is the empty string. -/
theorem C2_counterexample :
    parse_export (toL "❯\n") = [⟨Speaker.user, []⟩] ∧
    ¬(∀ t ∈ parse_export (toL "❯\n"), t.content ≠ []) :=
  ⟨by decide, by decide⟩

/-- C7 counterexample: in `"abc\n---\n\nxyz"` the separator follows non-blank
content, and its removal is not side-effect free: the blank line right after
it is dropped as well, so the output is `"abc\nxyz"` rather than
`"abc\n\nxyz"`. -/
theorem C7_counterexample :
    clean_content (toL "abc\n---\n\nxyz") = toL "abc\nxyz" ∧
    clean_content (toL "abc\n---\n\nxyz") ≠ toL "abc\n\nxyz" :=
  ⟨by decide, by decide⟩

/-- C6 counterexample: the rendered document embeds the `datetime.now()` date
in its front matter, so the pipeline output is not a function of the input
string and title alone. -/
theorem C6_counterexample :
    convert (toL "❯ hi") (toL "T") (toL "2024-01-01") ≠
      convert (toL "❯ hi") (toL "T") (toL "2024-01-02") := by decide

/-- C6 (amended): the full pipeline is a pure, deterministic function of the
input string, the title, and the current date (which appears in the
front-matter `date:` field); it depends on nothing else. -/
theorem C6_deterministic (c t d c2 t2 d2 : List Char)
    (hc : c = c2) (ht : t = t2) (hd : d = d2) :
    convert c t d = convert c2 t2 d2 := by
  rw [hc, ht, hd]

/-- C6 witness: determinism at a concrete input. -/
theorem C6_witness :
    convert (toL "❯ hi") (toL "T") (toL "2024-01-01") =
      convert (toL "❯ hi") (toL "T") (toL "2024-01-01") :=
  C6_deterministic _ _ _ _ _ _ rfl rfl rfl

/-- C8: when the computed user header (the stripped first content line) has
100 characters, the rendered H1 heading text is its first 77 characters plus
`...`, which is exactly 80 characters, and the heading line is `# ` followed
by that text. -/
theorem C8_header_truncation (content : List Char)
    (h : (pstrip (splitNL content).headI).length = 100) :
    (renderUserLines content).headI =
      toL "# " ++ ((pstrip (splitNL content).headI).take 77 ++ toL "...") ∧
    (truncHeader (pstrip (splitNL content).headI)).length = 80 ∧
    (toL "...") <:+ truncHeader (pstrip (splitNL content).headI) := by
  have h80 : 80 < (pstrip (splitNL content).headI).length := by rw [h]; decide
  refine ⟨?_, ?_, ?_⟩
  · show toL "# " ++ truncHeader (pstrip (splitNL content).headI) =
      toL "# " ++ ((pstrip (splitNL content).headI).take 77 ++ toL "...")
    unfold truncHeader
    rw [if_pos h80]
  · unfold truncHeader
    rw [if_pos h80, List.length_append, List.length_take, h]
    decide
  · unfold truncHeader
    rw [if_pos h80]
    exact ⟨_, rfl⟩

/-- C8 witness: a user turn whose header is 100 characters long. -/
theorem C8_witness :
    ((pstrip (splitNL (List.replicate 100 'a')).headI).length = 100) ∧
    (renderUserLines (List.replicate 100 'a')).headI =
      toL "# " ++ ((pstrip (splitNL (List.replicate 100 'a')).headI).take 77 ++ toL "...") :=
  ⟨by decide, (C8_header_truncation _ (by decide)).1⟩

theorem flushTurns_inv {st : PState} (h : ∀ t ∈ st.turns, t.content ≠ []) :
    ∀ t ∈ flushTurns st, t.content ≠ [] := by
  unfold flushTurns
  split
  · split
    · exact h
    · rename_i sp _ hne
      intro t ht
      rcases List.mem_append.mp ht with h1 | h1
      · exact h t h1
      · have h2 : t = ⟨sp, st.curContent⟩ := by simpa using h1
        subst h2
        simpa [List.isEmpty_iff] using hne
  · exact h

theorem processMain_inv {st : PState} (b : Bool) (cl : List Char)
    (h : ∀ t ∈ st.turns, t.content ≠ []) :
    ∀ t ∈ (processMain st b cl).turns, t.content ≠ [] := by
  unfold processMain
  dsimp only
  repeat' split
  all_goals first
    | exact h
    | exact flushTurns_inv h

theorem stepLine_inv {st : PState} (l : List Char)
    (h : ∀ t ∈ st.turns, t.content ≠ []) :
    ∀ t ∈ (stepLine st l).turns, t.content ≠ [] := by
  unfold stepLine
  dsimp only
  repeat' split
  all_goals first
    | exact h
    | exact processMain_inv _ _ h

theorem foldl_stepLine_inv : ∀ (ls : List (List Char)) (st : PState),
    (∀ t ∈ st.turns, t.content ≠ []) →
    ∀ t ∈ (ls.foldl stepLine st).turns, t.content ≠ [] := by
  intro ls
  induction ls with
  | nil => intro st h; exact h
  | cons l ls ih =>
    intro st h
    rw [List.foldl_cons]
    exact ih _ (stepLine_inv l h)

/-- C2 (amended): every turn appended to the output of `parse_export` is
flushed from a non-empty list of content lines (`if current_turn and
current_content`). The joined content string can nevertheless be empty when
all those lines are empty — see the counterexample `"❯\n"`. -/
theorem C2_turns_flushed_nonempty (content : List Char) :
    ∀ t ∈ parse_exportL content, t.content ≠ [] := by
  unfold parse_exportL parseLines
  apply flushTurns_inv
  apply foldl_stepLine_inv
  intro t ht
  cases ht

/-- C2 witness: the invariant at a concrete input. -/
theorem C2_witness :
    (⟨Speaker.user, [toL "hi"]⟩ : TurnL) ∈ parse_exportL (toL "❯ hi") ∧
    (⟨Speaker.user, [toL "hi"]⟩ : TurnL).content ≠ [] :=
  ⟨by decide, C2_turns_flushed_nonempty (toL "❯ hi") _ (by decide)⟩

/-- C3: when a user-prompt line whose extracted prompt text is a system
command arrives while an assistant turn is in progress, the segmenter flushes
that turn (when its content-line list is non-empty), emits nothing for the
command line itself, and clears the current turn. -/
theorem C3_system_command_flush (st : PState) (l : List Char)
    (hsb : st.skipBanner = false)
    (hcur : st.cur = some Speaker.claude)
    (ht : is_timing_line (clean_line l) = false)
    (hsr : is_system_response (clean_line l) = false)
    (hup : is_user_prompt (clean_line l) = true)
    (hsc : is_system_command (promptTextOf (clean_line l)) = true) :
    stepLine st l = ⟨flushTurns st, none, [], false⟩ := by
  unfold stepLine
  rw [hsb]
  simp only [Bool.false_eq_true, if_false]
  unfold processMain
  rw [ht, hsr, hup]
  dsimp only
  rw [hsc]
  simp [hsb]

/-- C3 witness: `❯ /rename foo` right after an in-progress assistant turn. -/
theorem C3_witness :
    stepLine ⟨[], some Speaker.claude, [toL "working"], false⟩ (toL "❯ /rename foo") =
      ⟨[⟨Speaker.claude, [toL "working"]⟩], none, [], false⟩ ∧
    is_system_command (promptTextOf (clean_line (toL "❯ /rename foo"))) = true := by
  constructor
  · exact (C3_system_command_flush ⟨[], some Speaker.claude, [toL "working"], false⟩
      (toL "❯ /rename foo") rfl rfl (by decide) (by decide) (by decide) (by decide)).trans
      (by decide)
  · decide

/-- C1 (amended): after a user turn, a line consisting of only the assistant
marker glyph followed by two more marker-bearing lines (none of them a user
prompt, timing line, or system response) produces exactly one assistant turn
whose content has exactly 2 lines: the marker-only line cleans to the empty
string and seeds no content, and the two following lines are merged into the
single assistant turn. -/
theorem C1_marker_merge (b c : List Char)
    (hb : has_claude_marker b = true) (hc : has_claude_marker c = true)
    (hbu : is_user_prompt (clean_line b) = false)
    (hcu : is_user_prompt (clean_line c) = false)
    (hbt : is_timing_line (clean_line b) = false)
    (hct : is_timing_line (clean_line c) = false)
    (hbs : is_system_response (clean_line b) = false)
    (hcs : is_system_response (clean_line c) = false) :
    parseLines [toL "❯ hi", toL "⏺", b, c] =
      [⟨Speaker.user, [toL "hi"]⟩, ⟨Speaker.claude, [clean_line b, clean_line c]⟩] ∧
    ((parseLines [toL "❯ hi", toL "⏺", b, c]).filter
        (fun t => t.type.isClaude)).length = 1 ∧
    (∀ t ∈ parseLines [toL "❯ hi", toL "⏺", b, c],
        t.type.isClaude = true → t.content.length = 2) := by
  have h2 : List.foldl stepLine initState [toL "❯ hi", toL "⏺"] =
      ⟨[⟨Speaker.user, [toL "hi"]⟩], some Speaker.claude, [], false⟩ := by decide
  have hsb : stepLine ⟨[⟨Speaker.user, [toL "hi"]⟩], some Speaker.claude, [], false⟩ b =
      ⟨[⟨Speaker.user, [toL "hi"]⟩], some Speaker.claude, [clean_line b], false⟩ := by
    unfold stepLine
    simp only [Bool.false_eq_true, if_false]
    unfold processMain
    rw [hb, hbt, hbs, hbu]
    simp
  have hsc : stepLine
      ⟨[⟨Speaker.user, [toL "hi"]⟩], some Speaker.claude, [clean_line b], false⟩ c =
      ⟨[⟨Speaker.user, [toL "hi"]⟩], some Speaker.claude,
        [clean_line b, clean_line c], false⟩ := by
    unfold stepLine
    simp only [Bool.false_eq_true, if_false]
    unfold processMain
    rw [hc, hct, hcs, hcu]
    simp
  have hmain : parseLines [toL "❯ hi", toL "⏺", b, c] =
      [⟨Speaker.user, [toL "hi"]⟩, ⟨Speaker.claude, [clean_line b, clean_line c]⟩] := by
    unfold parseLines
    rw [show ([toL "❯ hi", toL "⏺", b, c] : List (List Char)) =
      [toL "❯ hi", toL "⏺"] ++ [b, c] from rfl]
    rw [List.foldl_append, h2, List.foldl_cons, hsb, List.foldl_cons, hsc, List.foldl_nil]
    rfl
  refine ⟨hmain, ?_, ?_⟩
  · rw [hmain]
    rfl
  · rw [hmain]
    intro t ht hcl
    rcases List.mem_cons.mp ht with h1 | h1
    · subst h1; cases hcl
    · have h3 : t = ⟨Speaker.claude, [clean_line b, clean_line c]⟩ := by simpa using h1
      subst h3
      rfl

theorem lastFlag_eq (cleaned : List (List Char)) :
    (!cleaned.isEmpty && !(pstrip (cleaned.getLast?.getD [])).isEmpty) =
      (match cleaned.getLast? with
       | some k => !(pstrip k).isEmpty
       | none => false) := by
  cases hc : cleaned.getLast? with
  | none =>
    have hnil : cleaned = [] := List.getLast?_eq_none_iff.mp hc
    subst hnil
    rfl
  | some k =>
    have hne : cleaned ≠ [] := by
      intro hnil; subst hnil; cases hc
    have h1 : cleaned.isEmpty = false := by
      cases hcc : cleaned.isEmpty
      · rfl
      · exact absurd (List.isEmpty_iff.mp hcc) hne
    simp [hc, h1]

theorem ccLoop_eq_specDrop (minInd : Nat) :
    ∀ (ls cleaned : List (List Char)) (prev : Bool),
      ccLoop minInd ls cleaned prev =
        cleaned ++ specDrop minInd ls cleaned.getLast? prev := by
  intro ls
  induction ls with
  | nil => intro cleaned prev; simp [ccLoop, specDrop]
  | cons l ls ih =>
    intro cleaned prev
    unfold ccLoop specDrop
    dsimp only
    by_cases hsep : isSepLine (pstrip l) = true
    · rw [if_pos hsep, if_pos hsep]
      rw [← lastFlag_eq]
      cases hflag : (!cleaned.isEmpty && !(pstrip (cleaned.getLast?.getD [])).isEmpty) with
      | true => rw [if_pos rfl, if_pos rfl, ih]
      | false =>
        rw [if_neg (by simp), if_neg (by simp), ih]
    · rw [if_neg hsep, if_neg hsep]
      by_cases hpb : (prev && (pstrip l).isEmpty) = true
      · rw [if_pos hpb, if_pos hpb, ih]
      · rw [if_neg hpb, if_neg hpb, ih]
        rw [List.getLast?_concat]
        simp

/-- C7 (amended): per-turn normalization drops every pure-separator line;
when a separator immediately follows non-blank kept content, the single blank
line immediately after it is dropped as well; every other line is kept
unchanged apart from the uniform dedent. `specDrop` states that filter from
the amended wording; `clean_content` computes exactly it. -/
theorem C7_separator_normalization (content : List Char) :
    clean_content content =
      joinNL (specDrop (minIndent (splitNL content)) (splitNL content) none false) := by
  unfold clean_content
  dsimp only
  rw [ccLoop_eq_specDrop]
  rfl

theorem takeWhile_append_all {p : Char → Bool} : ∀ (u v : List Char),
    (∀ a ∈ u, p a = true) → (u ++ v).takeWhile p = u ++ v.takeWhile p := by
  intro u
  induction u with
  | nil => intro v _; rfl
  | cons c u' ih =>
    intro v h
    rw [List.cons_append, List.takeWhile_cons, if_pos (h c (List.mem_cons_self _ _))]
    rw [ih v (fun a ha => h a (List.mem_cons_of_mem _ ha))]
    rfl

theorem dropWhile_append_all {p : Char → Bool} : ∀ (u v : List Char),
    (∀ a ∈ u, p a = true) → (u ++ v).dropWhile p = v.dropWhile p := by
  intro u
  induction u with
  | nil => intro v _; rfl
  | cons c u' ih =>
    intro v h
    rw [List.cons_append, List.dropWhile_cons, if_pos (h c (List.mem_cons_self _ _))]
    exact ih v (fun a ha => h a (List.mem_cons_of_mem _ ha))

theorem takeWhile_eq_self_of_all {p : Char → Bool} : ∀ (u : List Char),
    (∀ a ∈ u, p a = true) → u.takeWhile p = u := by
  intro u
  induction u with
  | nil => intro _; rfl
  | cons c u' ih =>
    intro h
    rw [List.takeWhile_cons, if_pos (h c (List.mem_cons_self _ _))]
    rw [ih (fun a ha => h a (List.mem_cons_of_mem _ ha))]

theorem dropWhile_eq_nil_of_all {p : Char → Bool} (u : List Char)
    (h : ∀ a ∈ u, p a = true) : u.dropWhile p = [] :=
  List.dropWhile_eq_nil_iff.mpr h

theorem dropWhile_append_stop {p : Char → Bool} (u v : List Char)
    (h : ∃ a ∈ u, p a = false) : (u ++ v).dropWhile p = u.dropWhile p ++ v := by
  rw [List.dropWhile_append]
  have hne : u.dropWhile p ≠ [] := by
    intro hnil
    obtain ⟨a, ha, hpa⟩ := h
    rw [List.dropWhile_eq_nil_iff.mp hnil a ha] at hpa
    cases hpa
  rw [if_neg (by simpa [List.isEmpty_iff] using hne)]

theorem takeWhile_append_stop {p : Char → Bool} (u v : List Char)
    (h : ∃ a ∈ u, p a = false) : (u ++ v).takeWhile p = u.takeWhile p := by
  rw [List.takeWhile_append]
  have hne : (u.takeWhile p).length ≠ u.length := by
    intro hlen
    have heq : u.takeWhile p = u := (List.takeWhile_prefix p).eq_of_length hlen
    obtain ⟨a, ha, hpa⟩ := h
    have := List.mem_takeWhile_imp (heq ▸ ha)
    rw [this] at hpa
    cases hpa
  rw [if_neg hne]

theorem tryLineNum_length {s r : List Char} (h : tryLineNum s = some r) :
    r.length < s.length := by
  unfold tryLineNum at h
  dsimp only at h
  split at h
  · rename_i hcond
    cases h
    have hne : ((s.dropWhile pyWs).dropWhile Char.isDigit) ≠ [] := by
      intro hnil
      rw [hnil] at hcond
      simp at hcond
    have h1 : ((s.dropWhile pyWs).dropWhile Char.isDigit).length ≤
        (s.dropWhile pyWs).length :=
      ((List.dropWhile_suffix _).sublist).length_le
    have h2 : (s.dropWhile pyWs).length ≤ s.length :=
      ((List.dropWhile_suffix _).sublist).length_le
    have h3 : 1 ≤ ((s.dropWhile pyWs).dropWhile Char.isDigit).length :=
      List.length_pos.mpr hne
    rw [List.length_tail]
    omega
  · cases h

theorem tryLineNum_subset {l r : List Char} (h : tryLineNum l = some r) : r ⊆ l := by
  unfold tryLineNum at h
  dsimp only at h
  split at h
  · cases h
    intro a ha
    have h1 : a ∈ (l.dropWhile pyWs).dropWhile Char.isDigit :=
      (List.tail_sublist _).subset ha
    have h2 : a ∈ l.dropWhile pyWs := ((List.dropWhile_suffix _).sublist).subset h1
    exact ((List.dropWhile_suffix _).sublist).subset h2
  · cases h

theorem tryLineNum_append {l : List Char} (rest : List Char)
    (hnb : ∃ a ∈ l, pyWs a = false) :
    tryLineNum (l ++ '\n' :: rest) =
      (tryLineNum l).map (fun r => r ++ '\n' :: rest) := by
  have hu : (l ++ '\n' :: rest).dropWhile pyWs = l.dropWhile pyWs ++ '\n' :: rest :=
    dropWhile_append_stop l _ hnb
  unfold tryLineNum
  dsimp only
  rw [hu]
  by_cases hall : ∀ a ∈ l.dropWhile pyWs, Char.isDigit a = true
  · rw [takeWhile_append_all _ _ hall, dropWhile_append_all _ _ hall]
    rw [takeWhile_eq_self_of_all _ hall, dropWhile_eq_nil_of_all _ hall]
    have h1 : (('\n' :: rest).takeWhile Char.isDigit) = [] := rfl
    have h2 : (('\n' :: rest).dropWhile Char.isDigit) = '\n' :: rest := rfl
    rw [h1, h2]
    simp only [List.append_nil, List.head?_cons]
    have hne : l.dropWhile pyWs ≠ [] := by
      intro hnil
      obtain ⟨a, ha, hpa⟩ := hnb
      have h3 : ∀ b ∈ l, pyWs b = true := List.dropWhile_eq_nil_iff.mp hnil
      rw [h3 a ha] at hpa
      cases hpa
    have h4 : (!(l.dropWhile pyWs).isEmpty) = true := by
      simpa [List.isEmpty_iff] using hne
    rw [h4]
    have h5 : (some '\n' = some arrowC) = False := by
      simp [arrowC]
    rw [if_neg (by simp [arrowC]), if_neg (by simp)]
    rfl
  · push_neg at hall
    obtain ⟨a, ha, hpa⟩ := hall
    have hstop : ∃ a ∈ l.dropWhile pyWs, Char.isDigit a = false := by
      exact ⟨a, ha, by revert hpa; cases Char.isDigit a <;> simp⟩
    rw [takeWhile_append_stop _ _ hstop, dropWhile_append_stop _ _ hstop]
    cases hw : (l.dropWhile pyWs).dropWhile Char.isDigit with
    | nil =>
      exfalso
      obtain ⟨b, hb, hpb⟩ := hstop
      rw [List.dropWhile_eq_nil_iff.mp hw b hb] at hpb
      cases hpb
    | cons w ws =>
      simp only [List.cons_append, List.head?_cons, List.tail_cons]
      by_cases hcond : ((!((l.dropWhile pyWs).takeWhile Char.isDigit).isEmpty) &&
          decide (some w = some arrowC)) = true
      · rw [if_pos hcond, if_pos hcond]
        rfl
      · rw [if_neg hcond, if_neg hcond]
        rfl

theorem rmLNGo_fuel : ∀ (f1 : Nat) (l : List Char) (b : Bool) (f2 : Nat),
    l.length ≤ f1 → l.length ≤ f2 → rmLNGo f1 l b = rmLNGo f2 l b := by
  intro f1
  induction f1 with
  | zero =>
    intro l b f2 h1 _
    have hl : l = [] := List.eq_nil_of_length_eq_zero (Nat.le_zero.mp h1)
    subst hl
    cases f2 <;> rfl
  | succ g1 ih =>
    intro l b f2 h1 h2
    match l with
    | [] => cases f2 <;> rfl
    | c :: cs =>
      match f2 with
      | 0 => simp at h2
      | g2 + 1 =>
        simp only [rmLNGo]
        simp only [List.length_cons] at h1 h2
        cases hb : b with
        | true =>
          simp only [if_pos rfl]
          cases htry : tryLineNum (c :: cs) with
          | some r =>
            have hr := tryLineNum_length htry
            simp only [List.length_cons] at hr
            exact ih r false g2 (by omega) (by omega)
          | none => rw [ih cs _ g2 (by omega) (by omega)]
        | false =>
          simp only [Bool.false_eq_true, if_false]
          rw [ih cs _ g2 (by omega) (by omega)]

theorem rmLN_cons_false (c : Char) (cs : List Char) :
    rmLN (c :: cs) false = c :: rmLN cs (c = '\n') := rfl

theorem rmLN_cons_true_none {c : Char} {cs : List Char}
    (h : tryLineNum (c :: cs) = none) :
    rmLN (c :: cs) true = c :: rmLN cs (c = '\n') := by
  unfold rmLN
  simp only [List.length_cons, rmLNGo, h, if_true, eq_self_iff_true]

theorem rmLN_cons_true_some {c : Char} {cs r : List Char}
    (h : tryLineNum (c :: cs) = some r) :
    rmLN (c :: cs) true = rmLN r false := by
  unfold rmLN
  simp only [List.length_cons, rmLNGo, h, if_true, eq_self_iff_true]
  have hr := tryLineNum_length h
  simp only [List.length_cons] at hr
  exact rmLNGo_fuel _ _ _ _ (by omega) (le_refl _)

theorem rmLN_copy : ∀ (a : List Char) (rest : List Char), '\n' ∉ a →
    rmLN (a ++ '\n' :: rest) false = a ++ '\n' :: rmLN rest true := by
  intro a
  induction a with
  | nil =>
    intro rest _
    rw [List.nil_append, rmLN_cons_false]
    rfl
  | cons c a' ih =>
    intro rest h
    have hc : ¬c = '\n' := fun he => h (he ▸ List.mem_cons_self _ _)
    rw [List.cons_append, rmLN_cons_false]
    rw [show (decide (c = '\n')) = false from by simp [hc]]
    rw [ih rest (fun hm => h (List.mem_cons_of_mem _ hm))]
    rfl

theorem rmLN_line (l rest : List Char) (hnl : '\n' ∉ l)
    (hnb : ∃ a ∈ l, pyWs a = false) :
    rmLN (l ++ '\n' :: rest) true = stripLN l ++ '\n' :: rmLN rest true := by
  match l with
  | [] =>
    exfalso
    obtain ⟨a, ha, _⟩ := hnb
    cases ha
  | c :: l' =>
    have happ := tryLineNum_append rest (l := c :: l') hnb
    rw [List.cons_append] at happ
    cases htry : tryLineNum (c :: l') with
    | some r =>
      rw [htry] at happ
      rw [List.cons_append, rmLN_cons_true_some happ]
      have hnr : '\n' ∉ r := fun hm => hnl (tryLineNum_subset htry hm)
      rw [rmLN_copy r rest hnr]
      unfold stripLN
      rw [htry]
    | none =>
      rw [htry] at happ
      rw [List.cons_append, rmLN_cons_true_none happ]
      have hc : ¬c = '\n' := fun he => hnl (he ▸ List.mem_cons_self _ _)
      rw [show (decide (c = '\n')) = false from by simp [hc]]
      rw [rmLN_copy l' rest (fun hm => hnl (List.mem_cons_of_mem _ hm))]
      unfold stripLN
      rw [htry]
      rfl

theorem splitNL_append : ∀ (a r : List Char), '\n' ∉ a →
    splitNL (a ++ '\n' :: r) = a :: splitNL r := by
  intro a
  induction a with
  | nil => intro r _; simp [splitNL]
  | cons c a' ih =>
    intro r h
    have hc : ¬c = '\n' := fun he => h (he ▸ List.mem_cons_self _ _)
    rw [List.cons_append]
    rw [show splitNL (c :: (a' ++ '\n' :: r)) =
        (if c = '\n' then [] :: splitNL (a' ++ '\n' :: r)
         else match splitNL (a' ++ '\n' :: r) with
              | [] => [[c]]
              | l :: ls => (c :: l) :: ls) from rfl]
    rw [if_neg hc, ih r (fun hm => h (List.mem_cons_of_mem _ hm))]

theorem stripLN_subset (l : List Char) : stripLN l ⊆ l := by
  unfold stripLN
  cases htry : tryLineNum l with
  | some r => exact tryLineNum_subset htry
  | none => exact fun a ha => ha

theorem isStartL_subset : ∀ {a b : List Char}, isStartL a b = true → a ⊆ b := by
  intro a
  induction a with
  | nil => intro b _ x hx; cases hx
  | cons c a' ih =>
    intro b h
    match b with
    | [] => cases h
    | d :: b' =>
      simp only [isStartL, Bool.and_eq_true, decide_eq_true_eq] at h
      intro x hx
      rcases List.mem_cons.mp hx with h1 | h1
      · rw [h1, h.1]; exact List.mem_cons_self _ _
      · exact List.mem_cons_of_mem _ (ih h.2 h1)

theorem isInfixL_subset {b : List Char} : ∀ {l : List Char},
    isInfixL b l = true → b ⊆ l := by
  intro l
  induction l with
  | nil =>
    intro h
    match b, h with
    | [], _ => intro x hx; cases hx
  | cons c hs ih =>
    intro h
    rcases Bool.or_eq_true_iff.mp h with h1 | h1
    · exact isStartL_subset h1
    · exact fun x hx => List.mem_cons_of_mem _ (ih h1 hx)

theorem isInfixL_append_drop {hd : Char} {tb : List Char}
    (hhd : lnStop hd = false) :
    ∀ (u v : List Char), (∀ a ∈ u, lnStop a = true) →
      isInfixL (hd :: tb) (u ++ v) = isInfixL (hd :: tb) v := by
  intro u
  induction u with
  | nil => intro v _; rfl
  | cons c u' ih =>
    intro v h
    have hne : ¬hd = c := by
      intro he
      rw [he, h c (List.mem_cons_self _ _)] at hhd
      cases hhd
    rw [List.cons_append]
    show (isStartL (hd :: tb) (c :: (u' ++ v)) || isInfixL (hd :: tb) (u' ++ v)) = _
    have hs : isStartL (hd :: tb) (c :: (u' ++ v)) = false := by
      simp [isStartL, hne]
    rw [hs, Bool.false_or]
    exact ih v (fun a ha => h a (List.mem_cons_of_mem _ ha))

theorem any_infix_append_drop (L : List (List Char))
    (hL : ∀ b ∈ L, (match b with | [] => false | hd :: _ => !lnStop hd) = true) :
    ∀ (u v : List Char), (∀ a ∈ u, lnStop a = true) →
      L.any (fun b => isInfixL b (u ++ v)) = L.any (fun b => isInfixL b v) := by
  induction L with
  | nil => intro u v _; rfl
  | cons b L' ih =>
    intro u v hu
    simp only [List.any_cons]
    rw [ih (fun m hm => hL m (List.mem_cons_of_mem _ hm)) u v hu]
    have hb := hL b (List.mem_cons_self _ _)
    match b, hb with
    | hd :: tb, hb =>
      have h2 : (!lnStop hd) = true := hb
      have hhd : lnStop hd = false := by simpa using h2
      rw [isInfixL_append_drop hhd u v hu]

theorem is_cli_banner_append_drop (u v : List Char)
    (hu : ∀ a ∈ u, lnStop a = true) :
    is_cli_banner (u ++ v) = is_cli_banner v :=
  any_infix_append_drop bannerIndicators (by decide) u v hu

theorem banner_false_of_all (l : List Char)
    (hl : ∀ a ∈ l, lnStop a = true) :
    is_cli_banner l = false := by
  unfold is_cli_banner
  rw [List.any_eq_false]
  intro b hb
  have hmatch := (show ∀ b ∈ bannerIndicators,
      (match b with | [] => false | hd :: _ => !lnStop hd) = true from by decide) b hb
  cases hbi : isInfixL b l
  · simp
  · exfalso
    have hsub := isInfixL_subset hbi
    match b, hmatch with
    | hd :: tb, hmatch =>
      have h2 : (!lnStop hd) = true := hmatch
      have hhd : lnStop hd = false := by simpa using h2
      have : hd ∈ l := hsub (List.mem_cons_self _ _)
      rw [hl hd this] at hhd
      cases hhd

theorem tryLineNum_decomp {l r : List Char} (h : tryLineNum l = some r) :
    ∃ pre, l = pre ++ arrowC :: r ∧ ∀ a ∈ pre, lnStop a = true := by
  unfold tryLineNum at h
  dsimp only at h
  split at h
  · rename_i hcond
    cases h
    rw [Bool.and_eq_true] at hcond
    obtain ⟨hd, hhead⟩ := hcond
    rw [decide_eq_true_eq] at hhead
    cases hs2 : (l.dropWhile pyWs).dropWhile Char.isDigit with
    | nil => rw [hs2] at hhead; cases hhead
    | cons w ws =>
      rw [hs2] at hhead
      simp only [List.head?_cons, Option.some.injEq] at hhead
      refine ⟨l.takeWhile pyWs ++ (l.dropWhile pyWs).takeWhile Char.isDigit, ?_, ?_⟩
      · simp only [hs2, List.tail_cons]
        conv_lhs => rw [← List.takeWhile_append_dropWhile pyWs l]
        conv_lhs => rw [← List.takeWhile_append_dropWhile Char.isDigit (l.dropWhile pyWs)]
        rw [hs2, hhead, List.append_assoc]
      · intro a ha
        rcases List.mem_append.mp ha with h1 | h1
        · unfold lnStop
          rw [List.mem_takeWhile_imp h1]
          rfl
        · unfold lnStop
          rw [List.mem_takeWhile_imp h1]
          simp
  · cases h

theorem replaceArtifacts_append : ∀ (u v : List Char),
    replaceArtifacts (u ++ v) = replaceArtifacts u ++ replaceArtifacts v := by
  intro u
  induction u with
  | nil => intro v; rfl
  | cons c u' ih =>
    intro v
    show replArtifact c ++ replaceArtifacts (u' ++ v) = _
    rw [ih, ← List.append_assoc]
    rfl

theorem remove_ansi_append_noesc : ∀ (u v : List Char),
    (∀ a ∈ u, ¬a = '\x1b') →
    remove_ansi_codes (u ++ v) = u ++ remove_ansi_codes v := by
  intro u
  induction u with
  | nil => intro v _; rfl
  | cons c u' ih =>
    intro v h
    rw [List.cons_append,
      remove_ansi_cons_none (tryAnsi_none_of_ne _ (h c (List.mem_cons_self _ _)))]
    rw [ih v (fun a ha => h a (List.mem_cons_of_mem _ ha))]
    rfl

theorem lnStop_ne_esc {a : Char} (h : lnStop a = true) : ¬a = '\x1b' := by
  intro he
  rw [he] at h
  rw [show lnStop '\x1b' = false from by decide] at h
  cases h

theorem lnStop_not_box {a : Char} (h : lnStop a = true) :
    (!(boxChars.contains a)) = true := by
  cases hc : boxChars.contains a
  · rfl
  · exfalso
    have hmem : a ∈ boxChars := List.mem_of_elem_eq_true hc
    have := (show ∀ b ∈ boxChars, lnStop b = false from by decide) a hmem
    rw [h] at this
    cases this

theorem lnStop_repl {a : Char} (h : lnStop a = true) : replArtifact a = [a] := by
  unfold replArtifact
  rw [if_neg, if_neg]
  · intro he
    rw [he, show lnStop '…' = false from by decide] at h
    cases h
  · intro hor
    rcases hor with he | he | he <;>
      (rw [he] at h; revert h; decide)

theorem rstripL_append_nonws (u v : List Char)
    (h : ∃ b ∈ v, pyWs b = false) :
    rstripL (u ++ v) = u ++ rstripL v := by
  unfold rstripL
  rw [List.reverse_append]
  rw [dropWhile_append_stop _ _ (by
    obtain ⟨b, hb, hpb⟩ := h
    exact ⟨b, List.mem_reverse.mpr hb, hpb⟩)]
  rw [List.reverse_append, List.reverse_reverse]

theorem rstripL_append_allws (u v : List Char)
    (h : ∀ b ∈ v, pyWs b = true) :
    rstripL (u ++ v) = rstripL u := by
  unfold rstripL
  rw [List.reverse_append]
  rw [dropWhile_append_all _ _ (fun b hb => h b (List.mem_reverse.mp hb))]

theorem mem_replaceArtifacts_dot {a : Char} : ∀ {l : List Char},
    a ∈ replaceArtifacts l → a ∈ l ∨ ('…' ∈ l ∧ a = '.') := by
  intro l
  induction l with
  | nil => intro h; cases h
  | cons c cs ih =>
    intro h
    rcases List.mem_append.mp h with h1 | h1
    · unfold replArtifact at h1
      split at h1
      · cases h1
      · split at h1
        · rename_i he
          right
          exact ⟨he ▸ List.mem_cons_self _ _, by simpa using h1⟩
        · left
          have h2 : a = c := by simpa using h1
          exact h2 ▸ List.mem_cons_self _ _
    · rcases ih h1 with h2 | h2
      · exact Or.inl (List.mem_cons_of_mem _ h2)
      · exact Or.inr ⟨List.mem_cons_of_mem _ h2.1, h2.2⟩

theorem clean_line_all_ws {l : List Char} (h : ∀ a ∈ l, pyWs a = true) :
    ∀ a ∈ clean_line l, pyWs a = true := by
  intro a ha
  unfold clean_line at ha
  have h1 := mem_rstripL ha
  rcases mem_replaceArtifacts_dot h1 with h2 | h2
  · exact h a (mem_remove_ansi _ (mem_remove_box h2))
  · exfalso
    have h3 : '…' ∈ l := mem_remove_ansi _ (mem_remove_box h2.1)
    have h4 := h _ h3
    rw [show pyWs '…' = false from by decide] at h4
    cases h4

theorem nonblank_of_banner {l : List Char}
    (hb : is_cli_banner (clean_line l) = true) :
    ∃ a ∈ l, pyWs a = false := by
  by_contra hall
  push_neg at hall
  have hall2 : ∀ a ∈ l, pyWs a = true := by
    intro a ha
    have := hall a ha
    revert this
    cases pyWs a <;> simp
  have hfalse := banner_false_of_all (clean_line l) (by
    intro a ha
    unfold lnStop
    rw [clean_line_all_ws hall2 a ha]
    rfl)
  rw [hfalse] at hb
  cases hb

theorem clean_line_strip_banner {l : List Char}
    (hb : is_cli_banner (clean_line l) = true) :
    is_cli_banner (clean_line (stripLN l)) = true := by
  unfold stripLN
  cases htry : tryLineNum l with
  | none => exact hb
  | some r =>
    obtain ⟨pre, hl, hpre⟩ := tryLineNum_decomp htry
    have hl2 : l = (pre ++ [arrowC]) ++ r := by
      rw [hl, List.append_assoc]
      rfl
    have hpre2 : ∀ a ∈ pre ++ [arrowC], lnStop a = true := by
      intro a ha
      rcases List.mem_append.mp ha with h1 | h1
      · exact hpre a h1
      · have h2 : a = arrowC := by simpa using h1
        rw [h2]
        decide
    have hdec : replaceArtifacts (remove_box_chars (remove_ansi_codes l)) =
        (pre ++ [arrowC]) ++
          replaceArtifacts (remove_box_chars (remove_ansi_codes r)) := by
      rw [hl2, remove_ansi_append_noesc _ _ (fun a ha => lnStop_ne_esc (hpre2 a ha))]
      unfold remove_box_chars
      rw [List.filter_append]
      rw [List.filter_eq_self.mpr (fun a ha => lnStop_not_box (hpre2 a ha))]
      rw [replaceArtifacts_append]
      rw [replaceArtifacts_eq_self (fun a ha => lnStop_repl (hpre2 a ha))]
    by_cases hbody : ∃ b ∈ replaceArtifacts (remove_box_chars (remove_ansi_codes r)),
        pyWs b = false
    · have hcl : clean_line l =
          (pre ++ [arrowC]) ++
            clean_line r := by
        unfold clean_line
        rw [hdec, rstripL_append_nonws _ _ hbody]
      rw [hcl] at hb
      rw [is_cli_banner_append_drop _ _ hpre2] at hb
      exact hb
    · exfalso
      push_neg at hbody
      have hbody2 : ∀ b ∈ replaceArtifacts (remove_box_chars (remove_ansi_codes r)),
          pyWs b = true := by
        intro b hbm
        have := hbody b hbm
        revert this
        cases pyWs b <;> simp
      have hcl : clean_line l = rstripL (pre ++ [arrowC]) := by
        unfold clean_line
        rw [hdec, rstripL_append_allws _ _ hbody2]
      have hfalse := banner_false_of_all (rstripL (pre ++ [arrowC]))
        (fun a ha => hpre2 a (mem_rstripL ha))
      rw [hcl, hfalse] at hb
      cases hb

theorem stepLine_banner {st : PState} {l : List Char}
    (hsb : st.skipBanner = true) (hb : is_cli_banner (clean_line l) = true) :
    stepLine st l = st := by
  unfold stepLine
  dsimp only
  rw [hsb, hb]
  simp

/-- C4: prepending any number of pure banner-noise lines (each one a line,
newline-free, recognized by `is_cli_banner` after cleaning) to an input does
not change the list of turns produced by `parse_export`: the preamble never
leaks into the output. -/
theorem C4_preamble_invariant (x : List Char) (p : List (List Char))
    (hp : ∀ l ∈ p, is_cli_banner (clean_line l) = true ∧ '\n' ∉ l) :
    parse_export (prependLines p x) = parse_export x := by
  suffices h : parse_exportL (prependLines p x) = parse_exportL x by
    unfold parse_export
    rw [h]
  induction p with
  | nil => rfl
  | cons l p' ih =>
    have hl := (hp l (List.mem_cons_self _ _)).1
    have hnl := (hp l (List.mem_cons_self _ _)).2
    have hnb : ∃ a ∈ l, pyWs a = false := nonblank_of_banner hl
    have hp' : ∀ m ∈ p', is_cli_banner (clean_line m) = true ∧ '\n' ∉ m :=
      fun m hm => hp m (List.mem_cons_of_mem _ hm)
    have hpre : prependLines (l :: p') x = l ++ '\n' :: prependLines p' x := rfl
    show parseLines (splitNL (remove_line_numbers (prependLines (l :: p') x))) =
      parse_exportL x
    unfold remove_line_numbers
    rw [hpre, rmLN_line l _ hnl hnb,
      splitNL_append _ _ (fun hm => hnl (stripLN_subset l hm))]
    unfold parseLines
    rw [List.foldl_cons,
      stepLine_banner (rfl : initState.skipBanner = true) (clean_line_strip_banner hl)]
    exact ih hp'

/-- C4 witness: two banner lines prepended to a two-turn transcript. -/
theorem C4_witness :
    (∀ l ∈ [toL "Welcome back", toL "Claude Code v1.0"],
        is_cli_banner (clean_line l) = true ∧ '\n' ∉ l) ∧
    parse_export (prependLines [toL "Welcome back", toL "Claude Code v1.0"]
        (toL "❯ hi\n⏺ ok")) = parse_export (toL "❯ hi\n⏺ ok") :=
  ⟨by decide, C4_preamble_invariant (toL "❯ hi\n⏺ ok") _ (by decide)⟩

/-- C1 witness: the amended statement at concrete marker lines. -/
theorem C1_witness :
    parseLines [toL "❯ hi", toL "⏺", toL "⏺ b", toL "⏺ c"] =
      [⟨Speaker.user, [toL "hi"]⟩,
       ⟨Speaker.claude, [clean_line (toL "⏺ b"), clean_line (toL "⏺ c")]⟩] ∧
    has_claude_marker (toL "⏺ b") = true :=
  ⟨(C1_marker_merge (toL "⏺ b") (toL "⏺ c") (by decide) (by decide) (by decide)
      (by decide) (by decide) (by decide) (by decide) (by decide)).1,
   by decide⟩

end Conv

namespace Hook

/-- C9: the safety gate blocks exactly the commands matching at least one
pattern of the fixed `BLOCKED_PATTERNS` list; a command matching only warning
patterns (or none) is allowed. The verdict is a function of the command
string alone. -/
theorem C9_verdict (cmd : List Char) :
    (mainVerdict (some cmd) = Verdict.block ↔
      ∃ p ∈ BLOCKED_PATTERNS, reSearchIC p cmd = true) ∧
    (check_dangerous cmd = false → mainVerdict (some cmd) = Verdict.allow) := by
  have hmv : mainVerdict (some cmd) =
      (if cmd.isEmpty then Verdict.allow
       else if check_dangerous cmd then Verdict.block else Verdict.allow) := rfl
  constructor
  · rw [hmv]
    by_cases he : cmd.isEmpty = true
    · rw [if_pos he]
      have hc : cmd = [] := List.isEmpty_iff.mp he
      subst hc
      constructor
      · intro hcon; cases hcon
      · intro hex
        have hd : check_dangerous [] = true := List.any_eq_true.mpr hex
        rw [show check_dangerous [] = false from by decide] at hd
        cases hd
    · rw [if_neg he]
      by_cases hd : check_dangerous cmd = true
      · rw [if_pos hd]
        exact ⟨fun _ => List.any_eq_true.mp hd, fun _ => rfl⟩
      · rw [if_neg hd]
        constructor
        · intro hcon; cases hcon
        · intro hex
          exact absurd (List.any_eq_true.mpr hex) hd
  · intro hd
    rw [hmv]
    by_cases he : cmd.isEmpty = true
    · rw [if_pos he]
    · rw [if_neg he]
      simp [hd]

/-- C10: both pattern lists are matched case-insensitively — any two commands
equal up to ASCII case receive the same blocked and warning classification. -/
theorem C10_case_insensitive (c c2 : List Char) (h : lowerS c = lowerS c2) :
    check_dangerous c = check_dangerous c2 ∧ check_warning c = check_warning c2 := by
  unfold check_dangerous check_warning reSearchIC
  rw [h]
  exact ⟨rfl, rfl⟩

/-- C10 witness: `"RM -RF /"` is classified exactly as `"rm -rf /"`, and both
are blocked. -/
theorem C10_witness :
    Conv.toL "RM -RF /" ≠ Conv.toL "rm -rf /" ∧
    lowerS (Conv.toL "RM -RF /") = lowerS (Conv.toL "rm -rf /") ∧
    check_dangerous (Conv.toL "RM -RF /") = check_dangerous (Conv.toL "rm -rf /") ∧
    check_dangerous (Conv.toL "rm -rf /") = true :=
  ⟨by decide, by decide, (C10_case_insensitive _ _ (by decide)).1, by decide⟩

end Hook
